import Mathlib

/-!
# Staging panel of lazygit: navigation state and viewport focus

A shallow embedding of `pkg/gui/staging_panel.go`.

* Go `int` values (line numbers, slice indices, view heights) are `Int`.  All
  of them are positions in an in-memory diff, far below `2^63`, so the
  wrap-around of machine integers is not modelled.
* A Go slice `[]int` is a `List Int`; reading `xs[i]` outside `0 ≤ i < len xs`
  is a run-time crash, modelled by `index xs i = none`.
* `gui.State.StagingState` is a nilable pointer, `Option stagingState`.
* Every handler is a function from the gui state to the value it returns
  together with the gui state it leaves behind (`Ret × Gui`).  A crash is the
  return value `Ret.crashed`; the gui state next to it is the one reached at
  the point of the crash.
* Collaborators that live outside this file (git commands, the patch parser
  and modifier, the view) are the fields of `Collaborators`.
-/

namespace Staging

/-! ## Helpers of package `utils` -/

/-- Position of the first element strictly greater than `v`, if there is one. -/
def firstIndexAbove : List Int → Int → Option Nat
  | [], _ => none
  | x :: xs, v => if v < x then some 0 else (firstIndexAbove xs v).map Nat.succ

/-- Position of the last element strictly smaller than `v`, if there is one. -/
def lastIndexBelow : List Int → Int → Option Nat
  | [], _ => none
  | x :: xs, v =>
    match lastIndexBelow xs v with
    | some i => some (i + 1)
    | none => if x < v then some 0 else none

/-- Modelled from the spec: `utils.NextIndex` (package `utils` is not part of
the sources at hand).  `NextIndex(xs, v)` is the index of the first element
`> v`, or `0` if there is none. -/
def NextIndex (numbers : List Int) (currentNumber : Int) : Int :=
  match firstIndexAbove numbers currentNumber with
  | some i => (i : Int)
  | none => 0

/-- Modelled from the spec: `utils.PrevIndex` (package `utils` is not part of
the sources at hand).  `PrevIndex(xs, v)` is the index of the last element
`< v`, or `len(xs) - 1` if there is none. -/
def PrevIndex (numbers : List Int) (currentNumber : Int) : Int :=
  match lastIndexBelow numbers currentNumber with
  | some i => (i : Int)
  | none => (numbers.length : Int) - 1

/-! ## Data model -/

/-- Go slice read `xs[i]`: `none` stands for the index-out-of-range crash. -/
def index (xs : List Int) (i : Int) : Option Int :=
  if 0 ≤ i then xs[i.toNat]? else none

/-- The Go error values that matter here are compared and passed on only. -/
abbrev Err := String

/-- The struct `stagingState`. -/
structure stagingState where
  StageableLines : List Int
  HunkStarts : List Int
  CurrentLineIndex : Int
  Diff : String
deriving DecidableEq, Repr

/-- The part of `Gui` this file reads and writes: `gui.State.StagingState`. -/
structure Gui where
  StagingState : Option stagingState
deriving DecidableEq, Repr

/-- The file descriptor returned by `getSelectedFile`. -/
structure File where
  HasUnstagedChanges : Bool
deriving DecidableEq, Repr

/-- What a handler returns: `nil`, an error, or it does not return (crash). -/
inductive Ret where
  | nil
  | error (err : Err)
  | crashed
deriving DecidableEq, Repr

/-- A Go `error` result as a `Ret`. -/
def Ret.ofErr : Option Err → Ret
  | none => Ret.nil
  | some err => Ret.error err

/-- Everything the staging panel calls but does not define.  A field of type
`Option Err` is the `error` a call returns (`none` for `nil`). -/
structure Collaborators where
  /-- Result of `gui.getSelectedFile(gui.g)`. -/
  getSelectedFile : Except Err File
  /-- The sentinel `gui.Errors.ErrNoFiles`. -/
  ErrNoFiles : Err
  /-- Call `gui.GitCommand.Diff(file, plain)`. -/
  Diff : File → Bool → String
  /-- Error of `git.NewPatchParser`. -/
  NewPatchParser : Option Err
  /-- Call `p.ParsePatch(diff)`: hunk starts and stageable lines. -/
  ParsePatch : String → Except Err (List Int × List Int)
  /-- Error of `git.NewPatchModifier`. -/
  NewPatchModifier : Option Err
  /-- Call `p.ModifyPatchForHunk(diff, hunkStarts, currentLine)`. -/
  ModifyPatchForHunk : String → List Int → Int → Except Err String
  /-- Call `p.ModifyPatchForLine(diff, currentLine)`. -/
  ModifyPatchForLine : String → Int → Except Err String
  /-- Call `gui.GitCommand.ApplyPatch(patch)`. -/
  ApplyPatch : String → Except Err String
  /-- Error of `gui.refreshFiles(gui.g)`. -/
  refreshFiles : Option Err
  /-- Error of `gui.g.SetViewOnBottom("staging")`. -/
  SetViewOnBottom : Option Err
  /-- Error of `gui.switchFocus(gui.g, nil, filesView)`. -/
  switchFocus : Option Err
  /-- Error of `gui.renderString(gui.g, "staging", s)`. -/
  renderString : String → Option Err
  /-- Second component of `stagingView.Size()`. -/
  viewHeight : Int
  /-- Value of `stagingView.LinesHeight()`. -/
  linesHeight : Int
  /-- Error of `v.SetOrigin(x, y)`. -/
  SetOrigin : Int → Int → Option Err
  /-- Error of `v.SetCursor(x, y)`. -/
  SetCursor : Int → Int → Option Err

/-! ## Viewport focus -/

/-- The two rows `focusLine` hands to the view. -/
structure Focus where
  /-- Row passed to `v.SetOrigin(0, ·)`. -/
  scrollOrigin : Int
  /-- Row passed to `v.SetCursor(0, ·)`. -/
  cursorRow : Int
deriving DecidableEq, Repr

/-- The arithmetic of `focusLine`: `overScroll` is the origin row, and
`lineNumber - overScroll` the cursor row. -/
def focusLine (lineNumber bottomLine height : Int) : Focus :=
  let overScroll := bottomLine - height + 1
  let overScroll := if overScroll < 0 then 0 else overScroll
  { scrollOrigin := overScroll, cursorRow := lineNumber - overScroll }

/-- The two view calls of `focusLine` and the error it returns: `SetCursor` is
reached only when `SetOrigin` returned `nil`. -/
def setFocus (c : Collaborators) (f : Focus) : Ret :=
  match c.SetOrigin 0 f.scrollOrigin with
  | some err => Ret.error err
  | none =>
    match c.SetCursor 0 f.cursorRow with
    | some err => Ret.error err
    | none => Ret.nil

/-- The computation of `focusLineAndHunk` on a session: `linesHeight` is
`stagingView.LinesHeight()` and `height` the view height.  `none` is a slice
read out of range. -/
def focusLineAndHunk (state : stagingState) (linesHeight height : Int) : Option Focus :=
  match index state.StageableLines state.CurrentLineIndex with
  | none => none
  | some lineNumber =>
    let nextHunkStartIndex := NextIndex state.HunkStarts lineNumber
    let bottomLine? : Option Int :=
      if nextHunkStartIndex = 0 then some (linesHeight - 1)
      else (index state.HunkStarts nextHunkStartIndex).map (fun s => s - 1)
    match bottomLine? with
    | none => none
    | some bottomLine =>
      let hunkStartIndex := PrevIndex state.HunkStarts lineNumber
      match index state.HunkStarts hunkStartIndex with
      | none => none
      | some hunkStart =>
        let hunkStart := if hunkStartIndex = 0 then 0 else hunkStart
        let bottomLine := if bottomLine - hunkStart > height then lineNumber + 3 else bottomLine
        some (focusLine lineNumber bottomLine height)

/-- The method `gui.focusLineAndHunk()`: a nil session or a slice read out of
range crashes; otherwise the rows are handed to the view. -/
def guiFocusLineAndHunk (c : Collaborators) (g : Gui) : Ret :=
  match g.StagingState with
  | none => Ret.crashed
  | some state =>
    match focusLineAndHunk state c.linesHeight c.viewHeight with
    | none => Ret.crashed
    | some f => setFocus c f

/-! ## Navigation -/

/-- The new line index chosen by `handleCycleLine` (the `if prev` statement). -/
def cycleLineIndex (prev : Bool) (lineNumbers : List Int) (currentLine : Int) : Int :=
  if prev then PrevIndex lineNumbers currentLine
  else NextIndex lineNumbers currentLine

/-- The new hunk index chosen by `handleCycleHunk` (the `if prev` statement). -/
def cycleHunkIndex (prev : Bool) (hunkStarts : List Int) (currentHunkIndex : Int) : Int :=
  if prev then
    if currentHunkIndex = 0 then (hunkStarts.length : Int) - 1
    else currentHunkIndex - 1
  else
    if currentHunkIndex = (hunkStarts.length : Int) - 1 then 0
    else currentHunkIndex + 1

/-- The method `gui.handleCycleLine(prev)`. -/
def handleCycleLine (c : Collaborators) (prev : Bool) (g : Gui) : Ret × Gui :=
  match g.StagingState with
  | none => (Ret.crashed, g)
  | some state =>
    let lineNumbers := state.StageableLines
    match index lineNumbers state.CurrentLineIndex with
    | none => (Ret.crashed, g)
    | some currentLine =>
      let newIndex := cycleLineIndex prev lineNumbers currentLine
      let g1 : Gui := { StagingState := some { state with CurrentLineIndex := newIndex } }
      (guiFocusLineAndHunk c g1, g1)

/-- The method `gui.handleCycleHunk(prev)`. -/
def handleCycleHunk (c : Collaborators) (prev : Bool) (g : Gui) : Ret × Gui :=
  match g.StagingState with
  | none => (Ret.crashed, g)
  | some state =>
    let lineNumbers := state.StageableLines
    match index lineNumbers state.CurrentLineIndex with
    | none => (Ret.crashed, g)
    | some currentLine =>
      let currentHunkIndex := PrevIndex state.HunkStarts currentLine
      let newHunkIndex := cycleHunkIndex prev state.HunkStarts currentHunkIndex
      match index state.HunkStarts newHunkIndex with
      | none => (Ret.crashed, g)
      | some newHunkStart =>
        let g1 : Gui :=
          { StagingState := some { state with CurrentLineIndex := NextIndex lineNumbers newHunkStart } }
        (guiFocusLineAndHunk c g1, g1)

/-! ## Session refresh and staging -/

/-- The method `gui.handleStagingEscape`. -/
def handleStagingEscape (c : Collaborators) (g : Gui) : Ret × Gui :=
  match c.SetViewOnBottom with
  | some err => (Ret.error err, g)
  | none => (Ret.ofErr c.switchFocus, { StagingState := none })

/-- The method `gui.refreshStagingPanel()`. -/
def refreshStagingPanel (c : Collaborators) (g : Gui) : Ret × Gui :=
  match c.getSelectedFile with
  | Except.error err =>
    if err ≠ c.ErrNoFiles then (Ret.error err, g) else handleStagingEscape c g
  | Except.ok file =>
    if !file.HasUnstagedChanges then handleStagingEscape c g
    else
      let diff := c.Diff file true
      let colorDiff := c.Diff file false
      if diff.utf8ByteSize < 2 then handleStagingEscape c g
      else
        match c.NewPatchParser with
        | some _ => (Ret.nil, g)
        | none =>
          match c.ParsePatch diff with
          | Except.error _ => (Ret.nil, g)
          | Except.ok (hunkStarts, stageableLines) =>
            let currentLineIndex : Int :=
              match g.StagingState with
              | some old =>
                let last : Int := (stageableLines.length : Int) - 1
                if last < old.CurrentLineIndex then last else old.CurrentLineIndex
              | none => 0
            let g1 : Gui :=
              { StagingState := some
                  { StageableLines := stageableLines
                    HunkStarts := hunkStarts
                    CurrentLineIndex := currentLineIndex
                    Diff := diff } }
            if stageableLines.length = 0 then (Ret.error "No lines to stage", g1)
            else
              match guiFocusLineAndHunk c g1 with
              | Ret.nil => (Ret.ofErr (c.renderString colorDiff), g1)
              | r => (r, g1)

/-- The method `gui.handleStageLineOrHunk(hunk)`.  `c` answers the calls made
up to and including `ApplyPatch`, `c2` the calls made once the patch is
applied (the diff of the file is then a different one). -/
def handleStageLineOrHunk (c c2 : Collaborators) (hunk : Bool) (g : Gui) : Ret × Gui :=
  match c.NewPatchModifier with
  | some err => (Ret.error err, g)
  | none =>
    match g.StagingState with
    | none => (Ret.crashed, g)
    | some state =>
      match index state.StageableLines state.CurrentLineIndex with
      | none => (Ret.crashed, g)
      | some currentLine =>
        let modified :=
          if hunk then c.ModifyPatchForHunk state.Diff state.HunkStarts currentLine
          else c.ModifyPatchForLine state.Diff currentLine
        match modified with
        | Except.error err => (Ret.error err, g)
        | Except.ok patch =>
          match c.ApplyPatch patch with
          | Except.error err => (Ret.error err, g)
          | Except.ok _ =>
            match c2.refreshFiles with
            | some err => (Ret.error err, g)
            | none => refreshStagingPanel c2 g

/-! ## Reference definitions taken from the specification -/

/-- Strictly increasing list of line indices. -/
def StrictlyIncreasing (xs : List Int) : Prop :=
  List.Pairwise (fun a b => a < b) xs

instance (xs : List Int) : Decidable (StrictlyIncreasing xs) := by
  unfold StrictlyIncreasing; infer_instance

/-- Index of the hunk enclosing a line, in the words of the specification:
the hunk with the greatest start at or below the line.  Hunk starts are in
increasing order, so this is the last start that is `≤ lineNumber`. -/
def enclosingHunk : List Int → Int → Option Nat
  | [], _ => none
  | x :: xs, lineNumber =>
    match enclosingHunk xs lineNumber with
    | some i => some (i + 1)
    | none => if x ≤ lineNumber then some 0 else none

/-- Bottom line of hunk `k` in the words of the specification: the line just
before the next hunk start, or the last line of the document for the final
hunk. -/
def hunkBottom (hunkStarts : List Int) (k : Nat) (totalLines : Int) : Int :=
  match hunkStarts[k + 1]? with
  | some next => next - 1
  | none => totalLines - 1

/-- Top line of hunk `k` in the words of the specification: its start line,
except that the first hunk is treated as starting at line 0. -/
def hunkTop (hunkStarts : List Int) (k : Nat) : Int :=
  if k = 0 then 0 else hunkStarts.getD k 0

/-- Reference definition of the viewport focus calculator, written after
section 4.4 of the specification. -/
def computeFocus (lineNumber : Int) (hunkStarts : List Int) (viewHeight totalLines : Int) :
    Option Focus :=
  match enclosingHunk hunkStarts lineNumber with
  | none => none
  | some k =>
    let bottomLine0 := hunkBottom hunkStarts k totalLines
    let hunkStart := hunkTop hunkStarts k
    let bottomLine := if bottomLine0 - hunkStart > viewHeight then lineNumber + 3 else bottomLine0
    let scrollOrigin := max 0 (bottomLine - viewHeight + 1)
    some { scrollOrigin := scrollOrigin, cursorRow := lineNumber - scrollOrigin }

/-- Line `l` lies in hunk `k`: strictly after the start of hunk `k` and
strictly before the start of the next hunk, if there is one. -/
def InHunk (hunkStarts : List Int) (k : Nat) (l : Int) : Prop :=
  ∃ a, hunkStarts[k]? = some a ∧ a < l ∧ ∀ b, hunkStarts[k + 1]? = some b → l < b

/-- Index `j` is the first entry of `lines` that is at or after line `v`. -/
def FirstAtOrAfter (lines : List Int) (v : Int) (j : Int) : Prop :=
  (∃ a, index lines j = some a ∧ v ≤ a) ∧
    ∀ i b, i < j → index lines i = some b → b < v

/-- Index `k` holds the greatest hunk start that is at or below line `l`. -/
def GreatestStartAtOrBelow (hunkStarts : List Int) (l : Int) (k : Int) : Prop :=
  ∃ a, index hunkStarts k = some a ∧ a ≤ l ∧ ∀ b ∈ hunkStarts, b ≤ l → b ≤ a

/-- The navigation-state invariant `0 ≤ currentIndex < len(stageableLines)`. -/
def IndexInRange (state : stagingState) : Prop :=
  0 ≤ state.CurrentLineIndex ∧ state.CurrentLineIndex < (state.StageableLines.length : Int)

instance (state : stagingState) : Decidable (IndexInRange state) := by
  unfold IndexInRange; infer_instance

/-- The run of `refreshStagingPanel` reaches the re-parse: a file is selected
and has unstaged changes, its plain diff `diff` has at least two bytes, the
parser is created, and parsing `diff` yields `hunkStarts` and
`stageableLines`. -/
def Reparses (c : Collaborators) (diff : String) (hunkStarts stageableLines : List Int) : Prop :=
  ∃ file, c.getSelectedFile = Except.ok file ∧ file.HasUnstagedChanges = true ∧
    c.Diff file true = diff ∧ ¬ (diff.utf8ByteSize < 2) ∧ c.NewPatchParser = none ∧
    c.ParsePatch diff = Except.ok (hunkStarts, stageableLines)

/-- A sample environment: a file with unstaged changes whose diff parses to
hunk starts `[2, 8]` and stageable lines `[4, 10]`, a view of 20 rows showing
13 lines, and collaborators that all succeed. -/
def exampleCollaborators : Collaborators where
  getSelectedFile := Except.ok { HasUnstagedChanges := true }
  ErrNoFiles := "no files"
  Diff := fun _ plain => if plain then "plain diff" else "coloured diff"
  NewPatchParser := none
  ParsePatch := fun _ => Except.ok ([2, 8], [4, 10])
  NewPatchModifier := none
  ModifyPatchForHunk := fun _ _ _ => Except.ok "hunk patch"
  ModifyPatchForLine := fun _ _ => Except.ok "line patch"
  ApplyPatch := fun _ => Except.ok ""
  refreshFiles := none
  SetViewOnBottom := none
  switchFocus := none
  renderString := fun _ => none
  viewHeight := 20
  linesHeight := 13
  SetOrigin := fun _ _ => none
  SetCursor := fun _ _ => none

/-- The session of the two-hunk scenario of the specification: hunks starting
at lines 2 and 8, stageable lines 4 and 10, the first one selected. -/
def exampleSession : stagingState where
  StageableLines := [4, 10]
  HunkStarts := [2, 8]
  CurrentLineIndex := 0
  Diff := "plain diff"

/-- The sample environment for a file whose diff has no added or removed line
(a binary file, say): the parser yields no hunk start and no stageable
line. -/
def binaryFileCollaborators : Collaborators :=
  { exampleCollaborators with ParsePatch := fun _ => Except.ok ([], []) }

/-- The sample environment for a diff whose only hunk, starting at line 4,
has context lines only: the parser yields one hunk start and no stageable
line. -/
def contextOnlyCollaborators : Collaborators :=
  { exampleCollaborators with ParsePatch := fun _ => Except.ok ([4], []) }

/-- The sample environment with an external apply step that rejects every
patch. -/
def rejectingCollaborators : Collaborators :=
  { exampleCollaborators with ApplyPatch := fun _ => Except.error "patch does not apply" }

/-! ## Lemmas on `NextIndex` and `PrevIndex` -/

theorem firstIndexAbove_lt_length {xs : List Int} {v : Int} {i : Nat}
    (h : firstIndexAbove xs v = some i) : i < xs.length := by
  induction xs generalizing i with
  | nil => simp [firstIndexAbove] at h
  | cons x xs ih =>
    simp only [firstIndexAbove] at h
    split at h
    · cases h; simp
    · cases hr : firstIndexAbove xs v with
      | none => simp [hr] at h
      | some j =>
        simp [hr] at h
        have := ih hr
        subst h
        simp; omega

theorem lastIndexBelow_lt_length {xs : List Int} {v : Int} {i : Nat}
    (h : lastIndexBelow xs v = some i) : i < xs.length := by
  induction xs generalizing i with
  | nil => simp [lastIndexBelow] at h
  | cons x xs ih =>
    simp only [lastIndexBelow] at h
    cases hr : lastIndexBelow xs v with
    | none =>
      simp only [hr] at h
      split at h
      · cases h; simp
      · cases h
    | some j =>
      simp only [hr] at h
      cases h
      have := ih hr
      simp; omega

theorem firstIndexAbove_eq_none {xs : List Int} {v : Int}
    (h : ∀ b ∈ xs, b ≤ v) : firstIndexAbove xs v = none := by
  induction xs with
  | nil => rfl
  | cons x xs ih =>
    have hx : ¬ v < x := not_lt.mpr (h x (List.mem_cons_self _ _))
    have := ih (fun b hb => h b (List.mem_cons_of_mem _ hb))
    simp [firstIndexAbove, hx, this]

theorem lastIndexBelow_eq_none {xs : List Int} {v : Int}
    (h : ∀ b ∈ xs, v ≤ b) : lastIndexBelow xs v = none := by
  induction xs with
  | nil => rfl
  | cons x xs ih =>
    have hx : ¬ x < v := not_lt.mpr (h x (List.mem_cons_self _ _))
    have := ih (fun b hb => h b (List.mem_cons_of_mem _ hb))
    simp [lastIndexBelow, hx, this]

theorem firstIndexAbove_eq_some {xs : List Int} {v a : Int} {i : Nat}
    (hi : xs[i]? = some a) (ha : v < a)
    (hbefore : ∀ j b, j < i → xs[j]? = some b → b ≤ v) :
    firstIndexAbove xs v = some i := by
  induction xs generalizing i with
  | nil => simp at hi
  | cons x xs ih =>
    cases i with
    | zero =>
      simp at hi
      subst hi
      simp [firstIndexAbove, ha]
    | succ i =>
      have hx : ¬ v < x := not_lt.mpr (hbefore 0 x (Nat.succ_pos _) (by simp))
      have hi2 : xs[i]? = some a := by simpa using hi
      have := ih hi2 (fun j b hj hb => hbefore (j + 1) b (by omega) (by simpa using hb))
      simp [firstIndexAbove, hx, this]

theorem lastIndexBelow_eq_some {xs : List Int} {v a : Int} {i : Nat}
    (hi : xs[i]? = some a) (ha : a < v)
    (hafter : ∀ j b, i < j → xs[j]? = some b → v ≤ b) :
    lastIndexBelow xs v = some i := by
  induction xs generalizing i with
  | nil => simp at hi
  | cons x xs ih =>
    cases i with
    | zero =>
      simp at hi
      subst hi
      have hnone : lastIndexBelow xs v = none := by
        apply lastIndexBelow_eq_none
        intro b hb
        obtain ⟨j, hj⟩ := List.mem_iff_getElem?.mp hb
        exact hafter (j + 1) b (Nat.succ_pos _) (by simpa using hj)
      simp [lastIndexBelow, hnone, ha]
    | succ i =>
      have hi2 : xs[i]? = some a := by simpa using hi
      have := ih hi2 (fun j b hj hb => hafter (j + 1) b (by omega) (by simpa using hb))
      simp [lastIndexBelow, this]

theorem StrictlyIncreasing.lt_of_lt {xs : List Int} (h : StrictlyIncreasing xs)
    {i j : Nat} {a b : Int} (hi : xs[i]? = some a) (hj : xs[j]? = some b) (hij : i < j) :
    a < b := by
  unfold StrictlyIncreasing at h
  rw [List.pairwise_iff_getElem] at h
  obtain ⟨hi1, hi2⟩ := List.getElem?_eq_some.mp hi
  obtain ⟨hj1, hj2⟩ := List.getElem?_eq_some.mp hj
  have := h i j hi1 hj1 hij
  rw [hi2, hj2] at this
  exact this

theorem StrictlyIncreasing.le_of_le {xs : List Int} (h : StrictlyIncreasing xs)
    {i j : Nat} {a b : Int} (hi : xs[i]? = some a) (hj : xs[j]? = some b) (hij : i ≤ j) :
    a ≤ b := by
  rcases Nat.lt_or_eq_of_le hij with hlt | heq
  · exact le_of_lt (h.lt_of_lt hi hj hlt)
  · subst heq
    rw [hi] at hj
    cases hj
    exact le_refl _

theorem NextIndex_nonneg (xs : List Int) (v : Int) : 0 ≤ NextIndex xs v := by
  unfold NextIndex
  split
  · exact Int.ofNat_nonneg _
  · exact le_refl _

theorem NextIndex_lt_length {xs : List Int} (v : Int) (h : xs ≠ []) :
    NextIndex xs v < (xs.length : Int) := by
  unfold NextIndex
  split
  · next i hi => exact Int.ofNat_lt.mpr (firstIndexAbove_lt_length hi)
  · exact Int.ofNat_lt.mpr (List.length_pos.mpr h)

theorem PrevIndex_lt_length (xs : List Int) (v : Int) :
    PrevIndex xs v < (xs.length : Int) := by
  unfold PrevIndex
  split
  · next i hi => exact Int.ofNat_lt.mpr (lastIndexBelow_lt_length hi)
  · omega

theorem PrevIndex_nonneg {xs : List Int} (v : Int) (h : xs ≠ []) : 0 ≤ PrevIndex xs v := by
  unfold PrevIndex
  split
  · exact Int.ofNat_nonneg _
  · have := List.length_pos.mpr h
    omega

theorem index_natCast (xs : List Int) (k : Nat) : index xs (k : Int) = xs[k]? := by
  simp [index]

theorem index_eq_some {xs : List Int} {i a : Int} (h : index xs i = some a) :
    ∃ k : Nat, i = (k : Int) ∧ xs[k]? = some a := by
  unfold index at h
  split at h
  · next h0 => exact ⟨i.toNat, (Int.toNat_of_nonneg h0).symm, h⟩
  · cases h

theorem index_of_range {xs : List Int} {i : Int} (h0 : 0 ≤ i) (h1 : i < (xs.length : Int)) :
    ∃ a, index xs i = some a := by
  obtain ⟨k, rfl⟩ := Int.eq_ofNat_of_zero_le h0
  have hk : k < xs.length := Int.ofNat_lt.mp h1
  exact ⟨xs[k], by rw [index_natCast]; exact List.getElem?_eq_getElem hk⟩

theorem NextIndex_of_between {xs : List Int} {k : Nat} {a l : Int}
    (hs : StrictlyIncreasing xs) (hk : xs[k]? = some a) (hal : a ≤ l)
    (hnext : ∀ b, xs[k + 1]? = some b → l < b) :
    NextIndex xs l = if k + 1 < xs.length then (k : Int) + 1 else 0 := by
  have hbefore : ∀ j b, j < k + 1 → xs[j]? = some b → b ≤ l := fun j b hj hb =>
    le_trans (hs.le_of_le hb hk (by omega)) hal
  split
  · next hlt =>
    have hb : xs[k + 1]? = some xs[k + 1] := List.getElem?_eq_getElem hlt
    have := firstIndexAbove_eq_some hb (hnext _ hb) hbefore
    simp [NextIndex, this]
  · next hge =>
    have : firstIndexAbove xs l = none := by
      apply firstIndexAbove_eq_none
      intro b hb
      obtain ⟨j, hj⟩ := List.mem_iff_getElem?.mp hb
      have hjlt : j < xs.length := (List.getElem?_eq_some.mp hj).1
      exact hbefore j b (by omega) hj
    simp [NextIndex, this]

theorem PrevIndex_of_between {xs : List Int} {k : Nat} {a l : Int}
    (hs : StrictlyIncreasing xs) (hk : xs[k]? = some a) (hal : a < l)
    (hnext : ∀ b, xs[k + 1]? = some b → l ≤ b) :
    PrevIndex xs l = (k : Int) := by
  have hafter : ∀ j b, k < j → xs[j]? = some b → l ≤ b := by
    intro j b hj hb
    have hlt : k + 1 < xs.length := by
      have := (List.getElem?_eq_some.mp hb).1
      omega
    have hb1 : xs[k + 1]? = some xs[k + 1] := List.getElem?_eq_getElem hlt
    exact le_trans (hnext _ hb1) (hs.le_of_le hb1 hb (by omega))
  have := lastIndexBelow_eq_some hk hal hafter
  simp [PrevIndex, this]

theorem PrevIndex_of_le_all {xs : List Int} {l : Int} (h : ∀ b ∈ xs, l ≤ b) :
    PrevIndex xs l = (xs.length : Int) - 1 := by
  simp [PrevIndex, lastIndexBelow_eq_none h]

theorem lastIndexBelow_none_spec {xs : List Int} {v : Int}
    (h : lastIndexBelow xs v = none) : ∀ b ∈ xs, v ≤ b := by
  induction xs with
  | nil => intro b hb; cases hb
  | cons x xs ih =>
    simp only [lastIndexBelow] at h
    cases hr : lastIndexBelow xs v with
    | some j => simp [hr] at h
    | none =>
      simp only [hr] at h
      intro b hb
      rcases List.mem_cons.mp hb with rfl | hb
      · by_contra hcon
        simp [not_le.mp hcon] at h
      · exact ih hr b hb

theorem lastIndexBelow_some_spec {xs : List Int} {v : Int} {i : Nat}
    (h : lastIndexBelow xs v = some i) :
    ∃ a, xs[i]? = some a ∧ a < v ∧ ∀ j b, i < j → xs[j]? = some b → v ≤ b := by
  induction xs generalizing i with
  | nil => simp [lastIndexBelow] at h
  | cons x xs ih =>
    simp only [lastIndexBelow] at h
    cases hr : lastIndexBelow xs v with
    | none =>
      simp only [hr] at h
      split at h
      · next hx =>
        cases h
        refine ⟨x, by simp, hx, ?_⟩
        intro j b hj hb
        cases j with
        | zero => omega
        | succ j =>
          have hb2 : xs[j]? = some b := by simpa using hb
          exact lastIndexBelow_none_spec hr b (List.getElem?_mem hb2)
      · cases h
    | some j0 =>
      simp only [hr] at h
      cases h
      obtain ⟨a, ha1, ha2, ha3⟩ := ih hr
      refine ⟨a, by simpa using ha1, ha2, ?_⟩
      intro j b hj hb
      cases j with
      | zero => omega
      | succ j => exact ha3 j b (by omega) (by simpa using hb)

theorem firstIndexAbove_none_spec {xs : List Int} {v : Int}
    (h : firstIndexAbove xs v = none) : ∀ b ∈ xs, b ≤ v := by
  induction xs with
  | nil => intro b hb; cases hb
  | cons x xs ih =>
    simp only [firstIndexAbove] at h
    split at h
    · cases h
    · next hx =>
      cases hr : firstIndexAbove xs v with
      | some j => simp [hr] at h
      | none =>
        intro b hb
        rcases List.mem_cons.mp hb with rfl | hb
        · exact not_lt.mp hx
        · exact ih hr b hb

theorem firstIndexAbove_some_spec {xs : List Int} {v : Int} {i : Nat}
    (h : firstIndexAbove xs v = some i) :
    ∃ a, xs[i]? = some a ∧ v < a ∧ ∀ j b, j < i → xs[j]? = some b → b ≤ v := by
  induction xs generalizing i with
  | nil => simp [firstIndexAbove] at h
  | cons x xs ih =>
    simp only [firstIndexAbove] at h
    split at h
    · next hx =>
      cases h
      exact ⟨x, by simp, hx, fun j b hj _ => by omega⟩
    · next hx =>
      cases hr : firstIndexAbove xs v with
      | none => simp [hr] at h
      | some j0 =>
        simp [hr] at h
        subst h
        obtain ⟨a, ha1, ha2, ha3⟩ := ih hr
        refine ⟨a, by simpa using ha1, ha2, ?_⟩
        intro j b hj hb
        cases j with
        | zero =>
          simp at hb
          subst hb
          exact not_lt.mp hx
        | succ j => exact ha3 j b (by omega) (by simpa using hb)

/-- A line after the first hunk start that is no hunk start lies in a hunk. -/
theorem exists_inHunk {hs : List Int} {h0 l : Int}
    (hfirst : hs[0]? = some h0) (hlo : h0 < l) (hnot : l ∉ hs) :
    ∃ k, InHunk hs k l := by
  cases hr : lastIndexBelow hs l with
  | none =>
    have := lastIndexBelow_none_spec hr h0 (List.getElem?_mem hfirst)
    omega
  | some k =>
    obtain ⟨a, ha1, ha2, ha3⟩ := lastIndexBelow_some_spec hr
    refine ⟨k, a, ha1, ha2, ?_⟩
    intro b hb
    have hle := ha3 (k + 1) b (by omega) hb
    rcases lt_or_eq_of_le hle with h | h
    · exact h
    · exact absurd (h ▸ List.getElem?_mem hb) hnot

theorem enclosingHunk_eq_some {xs : List Int} {v a : Int} {i : Nat}
    (hi : xs[i]? = some a) (ha : a ≤ v)
    (hafter : ∀ j b, i < j → xs[j]? = some b → v < b) :
    enclosingHunk xs v = some i := by
  induction xs generalizing i with
  | nil => simp at hi
  | cons x xs ih =>
    cases i with
    | zero =>
      simp at hi
      subst hi
      have hnone : enclosingHunk xs v = none := by
        have hall : ∀ b ∈ xs, v < b := by
          intro b hb
          obtain ⟨j, hj⟩ := List.mem_iff_getElem?.mp hb
          exact hafter (j + 1) b (Nat.succ_pos _) (by simpa using hj)
        clear hafter ih
        induction xs with
        | nil => rfl
        | cons y ys ih2 =>
          have hy : ¬ y ≤ v := not_le.mpr (hall y (List.mem_cons_self _ _))
          simp [enclosingHunk, hy, ih2 (fun b hb => hall b (List.mem_cons_of_mem _ hb))]
      simp [enclosingHunk, hnone, ha]
    | succ i =>
      have hi2 : xs[i]? = some a := by simpa using hi
      have := ih hi2 (fun j b hj hb => hafter (j + 1) b (by omega) (by simpa using hb))
      simp [enclosingHunk, this]

/-! ## Lemmas on the handlers -/

/-- What `focusLineAndHunk` computes for a selected line lying in hunk `k`. -/
theorem focusLineAndHunk_inHunk {state : stagingState} {l totalLines height : Int} {k : Nat}
    (hinc : StrictlyIncreasing state.HunkStarts)
    (hsel : index state.StageableLines state.CurrentLineIndex = some l)
    (hk : InHunk state.HunkStarts k l) :
    focusLineAndHunk state totalLines height =
      some (focusLine l
        (if hunkBottom state.HunkStarts k totalLines - hunkTop state.HunkStarts k > height
          then l + 3 else hunkBottom state.HunkStarts k totalLines) height) := by
  obtain ⟨a, ha, hal, hnext⟩ := hk
  have hN := NextIndex_of_between hinc ha (le_of_lt hal) hnext
  have hP := PrevIndex_of_between hinc ha hal (fun b hb => le_of_lt (hnext b hb))
  have hidx : index state.HunkStarts (k : Int) = some a := by rw [index_natCast]; exact ha
  have htop : hunkTop state.HunkStarts k = if (k : Int) = 0 then 0 else a := by
    unfold hunkTop
    by_cases hk0 : k = 0
    · simp [hk0]
    · simp [hk0, ha]
  unfold focusLineAndHunk
  simp only [hsel, hP, hidx]
  by_cases hlt : k + 1 < state.HunkStarts.length
  · have hb : state.HunkStarts[k + 1]? = some state.HunkStarts[k + 1] :=
      List.getElem?_eq_getElem hlt
    have hbot : hunkBottom state.HunkStarts k totalLines = state.HunkStarts[k + 1] - 1 := by
      simp [hunkBottom, hb]
    have hN2 : NextIndex state.HunkStarts l = ((k + 1 : Nat) : Int) := by
      rw [hN, if_pos hlt]; push_cast; rfl
    have hne : ¬ (((k + 1 : Nat) : Int) = 0) := by omega
    rw [hN2, if_neg hne, index_natCast, hb]
    simp only [Option.map_some']
    rw [hbot, htop]
  · have hb : state.HunkStarts[k + 1]? = none := List.getElem?_eq_none (by omega)
    have hbot : hunkBottom state.HunkStarts k totalLines = totalLines - 1 := by
      simp [hunkBottom, hb]
    rw [hN, if_neg hlt]
    simp only [if_true]
    rw [hbot, htop]

theorem InHunk.lt_later {hs : List Int} {k : Nat} {l : Int} (hk : InHunk hs k l)
    (hinc : StrictlyIncreasing hs) {j : Nat} {b : Int} (hj : k < j) (hb : hs[j]? = some b) :
    l < b := by
  obtain ⟨a, _, _, hnext⟩ := hk
  have hlt : k + 1 < hs.length := by
    have := (List.getElem?_eq_some.mp hb).1
    omega
  have hb1 : hs[k + 1]? = some hs[k + 1] := List.getElem?_eq_getElem hlt
  exact lt_of_lt_of_le (hnext _ hb1) (hinc.le_of_le hb1 hb (by omega))

theorem InHunk.enclosingHunk_eq {hs : List Int} {k : Nat} {l : Int} (hk : InHunk hs k l)
    (hinc : StrictlyIncreasing hs) : enclosingHunk hs l = some k := by
  obtain ⟨a, ha, hal, hnext⟩ := hk
  exact enclosingHunk_eq_some ha (le_of_lt hal)
    (fun j b hj hb => InHunk.lt_later ⟨a, ha, hal, hnext⟩ hinc hj hb)

/-- Bounds on the top and bottom line of the hunk holding a valid selection. -/
theorem InHunk.bounds {hs : List Int} {k : Nat} {l h0 totalLines : Int} (hk : InHunk hs k l)
    (hinc : StrictlyIncreasing hs) (hfirst : hs[0]? = some h0) (hnn : 0 ≤ h0)
    (htotal : ∀ s ∈ hs, s < totalLines) (hhi : l < totalLines) :
    0 ≤ hunkTop hs k ∧ hunkTop hs k < l ∧ l ≤ hunkBottom hs k totalLines ∧
      hunkBottom hs k totalLines ≤ totalLines - 1 := by
  obtain ⟨a, ha, hal, hnext⟩ := hk
  have h0a : h0 ≤ a := hinc.le_of_le hfirst ha (Nat.zero_le _)
  have htop : hunkTop hs k = 0 ∨ hunkTop hs k = a := by
    unfold hunkTop
    by_cases hk0 : k = 0
    · left; simp [hk0]
    · right; simp [hk0, ha]
  have hbot : l ≤ hunkBottom hs k totalLines ∧ hunkBottom hs k totalLines ≤ totalLines - 1 := by
    unfold hunkBottom
    cases hb : hs[k + 1]? with
    | none => simp only; omega
    | some b =>
      simp only
      have h1 := hnext b hb
      have h2 := htotal b (List.getElem?_mem hb)
      omega
  rcases htop with h | h <;> rw [h] <;> omega

theorem setFocus_ne_crashed (c : Collaborators) (f : Focus) : setFocus c f ≠ Ret.crashed := by
  unfold setFocus
  split
  · simp
  · split <;> simp

/-- With the index in range and at least one hunk, `focusLineAndHunk` reads
no slice out of range. -/
theorem focusLineAndHunk_isSome {state : stagingState} (linesHeight height : Int)
    (hidx : IndexInRange state) (hne : state.HunkStarts ≠ []) :
    ∃ f, focusLineAndHunk state linesHeight height = some f := by
  obtain ⟨l, hl⟩ := index_of_range hidx.1 hidx.2
  obtain ⟨a, ha⟩ := index_of_range (PrevIndex_nonneg l hne) (PrevIndex_lt_length _ l)
  obtain ⟨b, hb⟩ := index_of_range (NextIndex_nonneg _ l) (NextIndex_lt_length l hne)
  unfold focusLineAndHunk
  simp only [hl, ha, hb, Option.map_some']
  split_ifs <;> exact ⟨_, rfl⟩

theorem guiFocusLineAndHunk_ne_crashed (c : Collaborators) {state : stagingState}
    (hidx : IndexInRange state) (hne : state.HunkStarts ≠ []) :
    guiFocusLineAndHunk c { StagingState := some state } ≠ Ret.crashed := by
  obtain ⟨f, hf⟩ := focusLineAndHunk_isSome c.linesHeight c.viewHeight hidx hne
  simp only [guiFocusLineAndHunk, hf]
  exact setFocus_ne_crashed c f

/-- Unfolding of `handleCycleLine` on a session whose current line is `l`. -/
theorem handleCycleLine_eq (c : Collaborators) (prev : Bool) {state : stagingState} {l : Int}
    (hsel : index state.StageableLines state.CurrentLineIndex = some l) :
    handleCycleLine c prev { StagingState := some state } =
      (guiFocusLineAndHunk c (Gui.mk (some { state with
            CurrentLineIndex := cycleLineIndex prev state.StageableLines l })),
        Gui.mk (some { state with
            CurrentLineIndex := cycleLineIndex prev state.StageableLines l })) := by
  simp only [handleCycleLine, hsel]

/-- Unfolding of `handleCycleHunk` on a session whose current line is `l`,
when the new hunk index is in range. -/
theorem handleCycleHunk_eq (c : Collaborators) (prev : Bool) {state : stagingState}
    {l t newHunkIndex : Int}
    (hsel : index state.StageableLines state.CurrentLineIndex = some l)
    (hnew : newHunkIndex = cycleHunkIndex prev state.HunkStarts (PrevIndex state.HunkStarts l))
    (ht : index state.HunkStarts newHunkIndex = some t) :
    handleCycleHunk c prev { StagingState := some state } =
      (guiFocusLineAndHunk c (Gui.mk (some { state with
            CurrentLineIndex := NextIndex state.StageableLines t })),
        Gui.mk (some { state with
            CurrentLineIndex := NextIndex state.StageableLines t })) := by
  simp only [handleCycleHunk, hsel]
  rw [← hnew]
  simp only [ht]

theorem InHunk.not_mem {hs : List Int} {k : Nat} {l : Int} (hk : InHunk hs k l)
    (hinc : StrictlyIncreasing hs) : l ∉ hs := by
  intro hmem
  obtain ⟨j, hj⟩ := List.mem_iff_getElem?.mp hmem
  obtain ⟨a, ha, hal, hnext⟩ := hk
  by_cases hjk : j ≤ k
  · have := hinc.le_of_le hj ha hjk
    omega
  · have := InHunk.lt_later ⟨a, ha, hal, hnext⟩ hinc (by omega : k < j) hj
    omega

/-- The gui state left by `refreshStagingPanel` once the diff is re-parsed. -/
theorem refreshStagingPanel_snd {c : Collaborators} {diff : String} {hs lines : List Int}
    (hre : Reparses c diff hs lines) (g : Gui) :
    (refreshStagingPanel c g).2 =
      Gui.mk (some
        { StageableLines := lines
          HunkStarts := hs
          CurrentLineIndex :=
            (match g.StagingState with
              | some old => min old.CurrentLineIndex ((lines.length : Int) - 1)
              | none => 0)
          Diff := diff }) := by
  obtain ⟨file, h1, h2, h3, h4, h5, h6⟩ := hre
  have hidx : ∀ p : Int, (if (lines.length : Int) - 1 < p then (lines.length : Int) - 1 else p)
      = min p ((lines.length : Int) - 1) := by
    intro p
    split_ifs <;> omega
  unfold refreshStagingPanel
  simp only [h1, h2, h3, h5, h6, Bool.not_true, Bool.false_eq_true, if_false, if_neg h4]
  cases hg : g.StagingState with
  | none =>
    simp only
    split_ifs
    · rfl
    · split <;> rfl
  | some old =>
    simp only [hidx]
    split_ifs
    · rfl
    · split <;> rfl

/-- The value returned by `refreshStagingPanel` is a crash only if the focus
computation on the new session crashes. -/
theorem refreshStagingPanel_fst_ne_crashed {c : Collaborators} {diff : String}
    {hs lines : List Int} (hre : Reparses c diff hs lines) (g : Gui)
    (hfocus : guiFocusLineAndHunk c (refreshStagingPanel c g).2 ≠ Ret.crashed) :
    (refreshStagingPanel c g).1 ≠ Ret.crashed := by
  obtain ⟨file, h1, h2, h3, h4, h5, h6⟩ := hre
  revert hfocus
  unfold refreshStagingPanel
  simp only [h1, h2, h3, h5, h6, Bool.not_true, Bool.false_eq_true, if_false, if_neg h4]
  split_ifs
  · intro _; simp
  · split
    · next hnil =>
      intro _
      cases c.renderString (c.Diff file false) <;> simp [Ret.ofErr]
    · next hr => intro hfocus; exact hfocus

theorem cycleHunkIndex_range (prev : Bool) (hs : List Int) {i : Int}
    (h0 : 0 ≤ i) (h1 : i < (hs.length : Int)) :
    0 ≤ cycleHunkIndex prev hs i ∧ cycleHunkIndex prev hs i < (hs.length : Int) := by
  unfold cycleHunkIndex
  split_ifs <;> constructor <;> omega

/-! ## The claims -/

/-- C1 (amended): for strictly increasing hunk starts (0-based line indices)
all below `totalLines`, a selected line after the first hunk start, below
`totalLines` and not itself a hunk start, and a view height that is `≥ 4` or
for which the hunk of the selected line is not judged too big
(`bottomLine - hunkStart ≤ viewHeight`, with `hunkStart = 0` for the first
hunk), `focusLineAndHunk` followed by `focusLine` produces a scroll origin
`≥ 0` and a cursor row with `0 ≤ cursorRow < viewHeight`. -/
theorem focus_bound (state : stagingState) (lineNumber totalLines viewHeight h0 : Int)
    (hinc : StrictlyIncreasing state.HunkStarts)
    (hfirst : state.HunkStarts[0]? = some h0) (hnn : 0 ≤ h0)
    (htotal : ∀ s ∈ state.HunkStarts, s < totalLines)
    (hsel : index state.StageableLines state.CurrentLineIndex = some lineNumber)
    (hlo : h0 < lineNumber) (hhi : lineNumber < totalLines)
    (hnot : lineNumber ∉ state.HunkStarts)
    (hview : 4 ≤ viewHeight ∨
      ∃ k, InHunk state.HunkStarts k lineNumber ∧
        hunkBottom state.HunkStarts k totalLines - hunkTop state.HunkStarts k ≤ viewHeight) :
    ∃ f, focusLineAndHunk state totalLines viewHeight = some f ∧
      0 ≤ f.scrollOrigin ∧ 0 ≤ f.cursorRow ∧ f.cursorRow < viewHeight := by
  rcases hview with hfour | ⟨k, hk, hfit⟩
  · obtain ⟨k, hk⟩ := exists_inHunk hfirst hlo hnot
    obtain ⟨h1, h2, h3, h4⟩ := hk.bounds hinc hfirst hnn htotal hhi
    refine ⟨_, focusLineAndHunk_inHunk hinc hsel hk, ?_⟩
    simp only [focusLine]
    split_ifs <;> refine ⟨?_, ?_, ?_⟩ <;> omega
  · obtain ⟨h1, h2, h3, h4⟩ := hk.bounds hinc hfirst hnn htotal hhi
    refine ⟨_, focusLineAndHunk_inHunk hinc hsel hk, ?_⟩
    simp only [focusLine]
    split_ifs <;> refine ⟨?_, ?_, ?_⟩ <;> omega

/-- Witness of `focus_bound`, once for each way of meeting its condition on
the view: one hunk starting at line 4, line 8 selected, a diff of 40 lines in
a view of 10 rows (the hunk is judged too big); and hunks starting at lines 4
and 10, line 12 selected, a diff of 14 lines in a view of 3 rows (the second
hunk, lines 10 to 13, is not judged too big). -/
theorem focus_bound_witness :
    (∃ f, focusLineAndHunk
        { StageableLines := [8, 9], HunkStarts := [4], CurrentLineIndex := 0, Diff := "" } 40 10
          = some f ∧ 0 ≤ f.scrollOrigin ∧ 0 ≤ f.cursorRow ∧ f.cursorRow < 10) ∧
    (hunkBottom [4, 10] 1 14 - hunkTop [4, 10] 1 ≤ 3 ∧
      ∃ f, focusLineAndHunk
        { StageableLines := [8, 12], HunkStarts := [4, 10], CurrentLineIndex := 1, Diff := "" }
        14 3 = some f ∧ 0 ≤ f.scrollOrigin ∧ 0 ≤ f.cursorRow ∧ f.cursorRow < 3) :=
  ⟨focus_bound { StageableLines := [8, 9], HunkStarts := [4], CurrentLineIndex := 0, Diff := "" }
      8 40 10 4 (by decide) (by decide) (by decide) (by decide) (by decide) (by decide)
      (by decide) (by decide) (Or.inl (by decide)),
    by decide,
    focus_bound
      { StageableLines := [8, 12], HunkStarts := [4, 10], CurrentLineIndex := 1, Diff := "" }
      12 14 3 4 (by decide) (by decide) (by decide) (by decide) (by decide) (by decide)
      (by decide) (by decide)
      (Or.inr ⟨1, ⟨10, rfl, by decide, fun b hb => by
        have hnone : ([4, 10] : List Int)[1 + 1]? = none := rfl
        rw [hnone] at hb
        cases hb⟩, by decide⟩)⟩

/-- C1 (as stated) fails: with one hunk starting at line 4, line 8 selected, a
diff of 20 lines and a view of 3 rows (all the hypotheses of the claim hold),
the hunk is judged too big, the origin row is 9 and the cursor row is -1. -/
theorem focus_bound_fails_below_four_rows :
    StrictlyIncreasing [4] ∧ (∀ s ∈ [(4 : Int)], s < 20) ∧ (1 : Int) ≤ 3 ∧
      index [8, 9] 0 = some 8 ∧ (4 : Int) < 8 ∧ (8 : Int) < 20 ∧ (8 : Int) ∉ [(4 : Int)] ∧
      ∃ f, focusLineAndHunk
          { StageableLines := [8, 9], HunkStarts := [4], CurrentLineIndex := 0, Diff := "" } 20 3
            = some f ∧
        f.scrollOrigin = 9 ∧ f.cursorRow = -1 ∧
        ¬ (0 ≤ f.scrollOrigin ∧ 0 ≤ f.cursorRow ∧ f.cursorRow < 3) :=
  ⟨by decide, by decide, by decide, by decide, by decide, by decide, by decide,
    { scrollOrigin := 9, cursorRow := -1 }, by decide, rfl, rfl, by decide⟩

theorem NextIndex_at {xs : List Int} {i : Nat} {a : Int} (hinc : StrictlyIncreasing xs)
    (hi : xs[i]? = some a) :
    NextIndex xs a = ((i : Int) + 1) % (xs.length : Int) := by
  have hlen : i < xs.length := (List.getElem?_eq_some.mp hi).1
  rw [NextIndex_of_between hinc hi (le_refl a)
    (fun b hb => hinc.lt_of_lt hi hb (Nat.lt_succ_self i))]
  split_ifs with h
  · rw [Int.emod_eq_of_lt (by omega) (by omega)]
  · have : (i : Int) + 1 = (xs.length : Int) := by omega
    rw [this, Int.emod_self]

theorem PrevIndex_at {xs : List Int} {i : Nat} {a : Int} (hinc : StrictlyIncreasing xs)
    (hi : xs[i]? = some a) :
    PrevIndex xs a = ((i : Int) + (xs.length : Int) - 1) % (xs.length : Int) := by
  have hlen : i < xs.length := (List.getElem?_eq_some.mp hi).1
  cases i with
  | zero =>
    have hall : ∀ b ∈ xs, a ≤ b := by
      intro b hb
      obtain ⟨j, hj⟩ := List.mem_iff_getElem?.mp hb
      exact hinc.le_of_le hi hj (Nat.zero_le j)
    rw [PrevIndex_of_le_all hall, Int.emod_eq_of_lt (by omega) (by omega)]
    omega
  | succ j =>
    have hj : xs[j]? = some xs[j] := List.getElem?_eq_getElem (by omega)
    have hlt : xs[j] < a := hinc.lt_of_lt hj hi (Nat.lt_succ_self j)
    rw [PrevIndex_of_between hinc hj hlt (fun b hb => by rw [hi] at hb; cases hb; exact le_refl _)]
    have : ((j + 1 : Nat) : Int) + (xs.length : Int) - 1 = (j : Int) + (xs.length : Int) := by
      push_cast; ring
    rw [this, Int.add_emod_self, Int.emod_eq_of_lt (by omega) (by omega)]

/-- C2: line cycling is circular.  For strictly increasing stageable lines of
length `n` and a current index `i` with `0 ≤ i < n`, `handleCycleLine(false)`
leaves the session with index `(i + 1) mod n` and `handleCycleLine(true)` with
index `(i + n - 1) mod n`, all other fields unchanged; with at least one hunk
start neither call crashes. -/
theorem handleCycleLine_circular (c : Collaborators) (state : stagingState)
    (hinc : StrictlyIncreasing state.StageableLines)
    (hidx : IndexInRange state) :
    (handleCycleLine c false { StagingState := some state }).2 =
        { StagingState := some { state with CurrentLineIndex :=
            (state.CurrentLineIndex + 1) % (state.StageableLines.length : Int) } } ∧
      (handleCycleLine c true { StagingState := some state }).2 =
        { StagingState := some { state with CurrentLineIndex :=
            (state.CurrentLineIndex + (state.StageableLines.length : Int) - 1) %
              (state.StageableLines.length : Int) } } ∧
      (state.HunkStarts ≠ [] →
        (handleCycleLine c false { StagingState := some state }).1 ≠ Ret.crashed ∧
        (handleCycleLine c true { StagingState := some state }).1 ≠ Ret.crashed) := by
  obtain ⟨l, hl⟩ := index_of_range hidx.1 hidx.2
  obtain ⟨i, hi, hli⟩ := index_eq_some hl
  have hn := NextIndex_at hinc hli
  have hp := PrevIndex_at hinc hli
  have hpos : (0 : Int) < (state.StageableLines.length : Int) := by
    have := hidx.1; have := hidx.2; omega
  refine ⟨?_, ?_, ?_⟩
  · rw [handleCycleLine_eq c false hl]
    simp only [cycleLineIndex, hn, hi]
    simp
  · rw [handleCycleLine_eq c true hl]
    simp only [cycleLineIndex, hp, hi]
    simp
  · intro hne
    constructor
    · rw [handleCycleLine_eq c false hl]
      refine guiFocusLineAndHunk_ne_crashed c ?_ ?_
      · simp only [IndexInRange, cycleLineIndex, hn]
        exact ⟨Int.emod_nonneg _ (by omega), Int.emod_lt_of_pos _ hpos⟩
      · exact hne
    · rw [handleCycleLine_eq c true hl]
      refine guiFocusLineAndHunk_ne_crashed c ?_ ?_
      · simp only [IndexInRange, cycleLineIndex, hp]
        exact ⟨Int.emod_nonneg _ (by omega), Int.emod_lt_of_pos _ hpos⟩
      · exact hne

/-- Witness of `handleCycleLine_circular`: with stageable lines `[4, 6, 10]`,
the next line after the last index 2 is index 0, and the line before it is
index 1. -/
theorem handleCycleLine_circular_witness :
    (handleCycleLine exampleCollaborators false
        { StagingState := some
            { StageableLines := [4, 6, 10], HunkStarts := [2, 8], CurrentLineIndex := 2,
              Diff := "plain diff" } }).2 =
      { StagingState := some
          { StageableLines := [4, 6, 10], HunkStarts := [2, 8], CurrentLineIndex := 0,
            Diff := "plain diff" } } ∧
    (handleCycleLine exampleCollaborators true
        { StagingState := some
            { StageableLines := [4, 6, 10], HunkStarts := [2, 8], CurrentLineIndex := 2,
              Diff := "plain diff" } }).2 =
      { StagingState := some
          { StageableLines := [4, 6, 10], HunkStarts := [2, 8], CurrentLineIndex := 1,
            Diff := "plain diff" } } :=
  ⟨(handleCycleLine_circular exampleCollaborators
      { StageableLines := [4, 6, 10], HunkStarts := [2, 8], CurrentLineIndex := 2,
        Diff := "plain diff" } (by decide) (by decide)).1,
    (handleCycleLine_circular exampleCollaborators
      { StageableLines := [4, 6, 10], HunkStarts := [2, 8], CurrentLineIndex := 2,
        Diff := "plain diff" } (by decide) (by decide)).2.1⟩

/-- The hunk index chosen by `handleCycleHunk` is the cyclic neighbour. -/
theorem cycleHunkIndex_mod (prev : Bool) (hs : List Int) {k : Nat} (hk : k < hs.length) :
    ∃ k2 : Nat, k2 < hs.length ∧ cycleHunkIndex prev hs (k : Int) = (k2 : Int) ∧
      (k2 : Int) = (if prev then ((k : Int) + (hs.length : Int) - 1) % (hs.length : Int)
        else ((k : Int) + 1) % (hs.length : Int)) := by
  cases prev with
  | false =>
    by_cases hlast : (k : Int) = (hs.length : Int) - 1
    · refine ⟨0, by omega, by simp [cycleHunkIndex, hlast], ?_⟩
      have : (k : Int) + 1 = (hs.length : Int) := by omega
      simp [this]
    · refine ⟨k + 1, by omega, by simp [cycleHunkIndex, hlast], ?_⟩
      simp only [Bool.false_eq_true, if_false]
      rw [Int.emod_eq_of_lt (by omega) (by omega)]
      push_cast; rfl
  | true =>
    cases k with
    | zero =>
      refine ⟨hs.length - 1, by omega, ?_, ?_⟩
      · simp only [cycleHunkIndex, if_true]
        simp
        omega
      · simp only [if_true]
        rw [Int.emod_eq_of_lt (by omega) (by omega)]
        omega
    | succ j =>
      refine ⟨j, by omega, ?_, ?_⟩
      · have hne : ¬ (((j + 1 : Nat) : Int) = 0) := by omega
        simp only [cycleHunkIndex, if_true, if_neg hne]
        push_cast; ring
      · simp only [if_true]
        have : ((j + 1 : Nat) : Int) + (hs.length : Int) - 1 = (j : Int) + (hs.length : Int) := by
          push_cast; ring
        rw [this, Int.add_emod_self, Int.emod_eq_of_lt (by omega) (by omega)]

/-- The first stageable line after a hunk start, when no stageable line is a
hunk start and the hunk holds a stageable line. -/
theorem NextIndex_firstAtOrAfter {lines hs : List Int} {k2 : Nat} {t : Int}
    (hincH : StrictlyIncreasing hs) (hincL : StrictlyIncreasing lines)
    (hlines : ∀ l ∈ lines, ∃ k, InHunk hs k l)
    (hhunk : ∃ l ∈ lines, InHunk hs k2 l)
    (ht : hs[k2]? = some t) :
    ∃ a, index lines (NextIndex lines t) = some a ∧ InHunk hs k2 a ∧
      FirstAtOrAfter lines t (NextIndex lines t) := by
  obtain ⟨l0, hl0mem, hl0⟩ := hhunk
  have hl0' := hl0
  obtain ⟨t', ht', htl0, hl0next⟩ := hl0'
  rw [ht] at ht'
  cases ht'
  cases hr : firstIndexAbove lines t with
  | none =>
    have := firstIndexAbove_none_spec hr l0 hl0mem
    omega
  | some j =>
    obtain ⟨a, ha, hta, hbefore⟩ := firstIndexAbove_some_spec hr
    have hN : NextIndex lines t = (j : Int) := by simp [NextIndex, hr]
    obtain ⟨m, hm⟩ := List.mem_iff_getElem?.mp hl0mem
    have hjm : j ≤ m := by
      by_contra hcon
      have := hbefore m l0 (by omega) hm
      omega
    have hal0 : a ≤ l0 := hincL.le_of_le ha hm hjm
    rw [hN, index_natCast]
    refine ⟨a, ha, ⟨t, ht, hta, fun b hb => lt_of_le_of_lt hal0 (hl0next b hb)⟩, ?_⟩
    refine ⟨⟨a, by rw [index_natCast]; exact ha, le_of_lt hta⟩, ?_⟩
    intro i b hi hb
    obtain ⟨i2, rfl, hb2⟩ := index_eq_some hb
    have hle := hbefore i2 b (by omega) hb2
    rcases lt_or_eq_of_le hle with h | h
    · exact h
    · obtain ⟨kb, hkb⟩ := hlines b (List.getElem?_mem hb2)
      exact absurd (h ▸ List.getElem?_mem ht) (hkb.not_mem hincH)

/-- C3: hunk cycling lands on the first stageable line of the cyclically
adjacent hunk.  For strictly increasing hunk starts (length `h`) and
stageable lines, every stageable line lying in a hunk and every hunk holding
a stageable line, if the current line is in hunk `k` then `handleCycleHunk`
does not crash and sets the index to the first stageable line at or after
the start of hunk `(k + 1) mod h` (`prev = false`) or `(k + h - 1) mod h`
(`prev = true`); that line lies in that hunk, and the other fields of the
session are unchanged. -/
theorem handleCycleHunk_adjacent (c : Collaborators) (prev : Bool) (state : stagingState)
    (k : Nat) (currentLine : Int)
    (hincH : StrictlyIncreasing state.HunkStarts)
    (hincL : StrictlyIncreasing state.StageableLines)
    (hlines : ∀ l ∈ state.StageableLines, ∃ k, InHunk state.HunkStarts k l)
    (hhunks : ∀ k, k < state.HunkStarts.length →
      ∃ l ∈ state.StageableLines, InHunk state.HunkStarts k l)
    (hsel : index state.StageableLines state.CurrentLineIndex = some currentLine)
    (hk : InHunk state.HunkStarts k currentLine) :
    ∃ (k2 : Nat) (target newIndex newLine : Int),
      (k2 : Int) = (if prev
        then ((k : Int) + (state.HunkStarts.length : Int) - 1) % (state.HunkStarts.length : Int)
        else ((k : Int) + 1) % (state.HunkStarts.length : Int)) ∧
      state.HunkStarts[k2]? = some target ∧
      (handleCycleHunk c prev { StagingState := some state }).2 =
        { StagingState := some { state with CurrentLineIndex := newIndex } } ∧
      (handleCycleHunk c prev { StagingState := some state }).1 ≠ Ret.crashed ∧
      FirstAtOrAfter state.StageableLines target newIndex ∧
      index state.StageableLines newIndex = some newLine ∧
      InHunk state.HunkStarts k2 newLine := by
  have hk' := hk
  obtain ⟨a, ha, hal, hnext⟩ := hk'
  have hklen : k < state.HunkStarts.length := (List.getElem?_eq_some.mp ha).1
  have hP : PrevIndex state.HunkStarts currentLine = (k : Int) :=
    PrevIndex_of_between hincH ha hal (fun b hb => le_of_lt (hnext b hb))
  obtain ⟨k2, hk2len, hk2eq, hk2mod⟩ := cycleHunkIndex_mod prev state.HunkStarts hklen
  have ht : state.HunkStarts[k2]? = some state.HunkStarts[k2] := List.getElem?_eq_getElem hk2len
  obtain ⟨newLine, hnl, hin, hfirst⟩ :=
    NextIndex_firstAtOrAfter hincH hincL hlines (hhunks k2 hk2len) ht
  have hnew : (k2 : Int) = cycleHunkIndex prev state.HunkStarts
      (PrevIndex state.HunkStarts currentLine) := by rw [hP, hk2eq]
  have hrun := handleCycleHunk_eq c prev hsel hnew (by rw [index_natCast]; exact ht)
  refine ⟨k2, state.HunkStarts[k2], NextIndex state.StageableLines state.HunkStarts[k2],
    newLine, hk2mod, ht, by rw [hrun], ?_, hfirst, hnl, hin⟩
  rw [hrun]
  refine guiFocusLineAndHunk_ne_crashed c ?_ ?_
  · obtain ⟨i, _, hli⟩ := index_eq_some hnl
    have hlne : state.StageableLines ≠ [] :=
      List.ne_nil_of_length_pos (by have := (List.getElem?_eq_some.mp hli).1; omega)
    exact ⟨NextIndex_nonneg _ _, NextIndex_lt_length _ hlne⟩
  · exact List.ne_nil_of_length_pos (by show 0 < state.HunkStarts.length; omega)

theorem exampleSession_inHunk_first : InHunk exampleSession.HunkStarts 0 4 :=
  ⟨2, rfl, by decide, fun b hb => by
    have h8 : b = 8 := by
      have : exampleSession.HunkStarts[0 + 1]? = some 8 := rfl
      rw [this] at hb
      cases hb
      rfl
    omega⟩

theorem exampleSession_inHunk_second : InHunk exampleSession.HunkStarts 1 10 :=
  ⟨8, rfl, by decide, fun b hb => by
    have : exampleSession.HunkStarts[1 + 1]? = none := rfl
    rw [this] at hb
    cases hb⟩

/-- Witness of `handleCycleHunk_adjacent`, the scenario of the specification:
hunk starts `[2, 8]`, stageable lines `[4, 10]`, index 0 (line 4); the next
hunk selects index 1, line 10. -/
theorem handleCycleHunk_adjacent_witness :
    (∃ (k2 : Nat) (target newIndex newLine : Int),
      (k2 : Int) = 1 ∧
      exampleSession.HunkStarts[k2]? = some target ∧
      (handleCycleHunk exampleCollaborators false { StagingState := some exampleSession }).2 =
        { StagingState := some { exampleSession with CurrentLineIndex := newIndex } } ∧
      (handleCycleHunk exampleCollaborators false { StagingState := some exampleSession }).1
        ≠ Ret.crashed ∧
      FirstAtOrAfter exampleSession.StageableLines target newIndex ∧
      index exampleSession.StageableLines newIndex = some newLine ∧
      InHunk exampleSession.HunkStarts k2 newLine) ∧
    (handleCycleHunk exampleCollaborators false { StagingState := some exampleSession }).2 =
      { StagingState := some { exampleSession with CurrentLineIndex := 1 } } ∧
    index exampleSession.StageableLines 1 = some 10 :=
  ⟨handleCycleHunk_adjacent exampleCollaborators false exampleSession 0 4
      (by decide) (by decide)
      (fun l hl => by
        rcases List.mem_cons.mp hl with rfl | hl
        · exact ⟨0, exampleSession_inHunk_first⟩
        · rcases List.mem_cons.mp hl with rfl | hl
          · exact ⟨1, exampleSession_inHunk_second⟩
          · cases hl)
      (fun k hk => by
        have hk2 : k < 2 := hk
        rcases Nat.lt_or_ge k 1 with h | h
        · have : k = 0 := by omega
          subst this
          exact ⟨4, by decide, exampleSession_inHunk_first⟩
        · have : k = 1 := by omega
          subst this
          exact ⟨10, by decide, exampleSession_inHunk_second⟩)
      (by decide) exampleSession_inHunk_first,
    by decide, by decide⟩

/-- C4 (evaluation of the code): for a file with unstaged changes whose diff
parses to no stageable line, `refreshStagingPanel` returns the error "No
lines to stage" and leaves a session behind instead of `nil`: with index `-1`
when a session was active before, with index `0` when none was.  Evaluated
for a parse without hunk starts and for a parse with the hunk start 4. -/
theorem refreshStagingPanel_no_lines_keeps_session :
    Reparses binaryFileCollaborators "plain diff" [] [] ∧
      refreshStagingPanel binaryFileCollaborators { StagingState := some exampleSession } =
        (Ret.error "No lines to stage",
          { StagingState := some
              { StageableLines := [], HunkStarts := [], CurrentLineIndex := -1,
                Diff := "plain diff" } }) ∧
      refreshStagingPanel binaryFileCollaborators { StagingState := none } =
        (Ret.error "No lines to stage",
          { StagingState := some
              { StageableLines := [], HunkStarts := [], CurrentLineIndex := 0,
                Diff := "plain diff" } }) ∧
      refreshStagingPanel contextOnlyCollaborators { StagingState := some exampleSession } =
        (Ret.error "No lines to stage",
          { StagingState := some
              { StageableLines := [], HunkStarts := [4], CurrentLineIndex := -1,
                Diff := "plain diff" } }) ∧
      (refreshStagingPanel binaryFileCollaborators
        { StagingState := some exampleSession }).2.StagingState ≠ none ∧
      (refreshStagingPanel binaryFileCollaborators { StagingState := none }).2.StagingState
        ≠ none :=
  ⟨⟨{ HasUnstagedChanges := true }, rfl, rfl, rfl, by decide, rfl, rfl⟩,
    by decide, by decide, by decide, by decide, by decide⟩

/-- C5: when `refreshStagingPanel` re-parses the diff, the new session holds
exactly the freshly parsed stageable lines, hunk starts and diff; its index is
`min(p, m - 1)` when a session with index `p` was active (`m` the number of
stageable lines) and `0` when none was.  With a previous index `p ≥ 0` and at
least one hunk start the call does not crash. -/
theorem refreshStagingPanel_clamps_index (c : Collaborators) (diff : String)
    (hunkStarts stageableLines : List Int)
    (hre : Reparses c diff hunkStarts stageableLines) :
    (∀ old : stagingState,
        (refreshStagingPanel c { StagingState := some old }).2 =
          { StagingState := some
              { StageableLines := stageableLines
                HunkStarts := hunkStarts
                CurrentLineIndex := min old.CurrentLineIndex ((stageableLines.length : Int) - 1)
                Diff := diff } } ∧
        (0 ≤ old.CurrentLineIndex → hunkStarts ≠ [] →
          (refreshStagingPanel c { StagingState := some old }).1 ≠ Ret.crashed)) ∧
      (refreshStagingPanel c { StagingState := none }).2 =
        { StagingState := some
            { StageableLines := stageableLines
              HunkStarts := hunkStarts
              CurrentLineIndex := 0
              Diff := diff } } ∧
      (hunkStarts ≠ [] → (refreshStagingPanel c { StagingState := none }).1 ≠ Ret.crashed) := by
  have hempty : stageableLines.length = 0 → ∀ g,
      (refreshStagingPanel c g).1 ≠ Ret.crashed := by
    intro hlen g
    obtain ⟨file, h1, h2, h3, h4, h5, h6⟩ := hre
    unfold refreshStagingPanel
    simp [h1, h2, h3, h5, h6, h4, hlen]
  refine ⟨fun old => ⟨refreshStagingPanel_snd hre _, ?_⟩, refreshStagingPanel_snd hre _, ?_⟩
  · intro hp hne
    by_cases hlen : stageableLines.length = 0
    · exact hempty hlen _
    · apply refreshStagingPanel_fst_ne_crashed hre
      rw [refreshStagingPanel_snd hre]
      refine guiFocusLineAndHunk_ne_crashed c ?_ hne
      simp only [IndexInRange]
      constructor
      · exact le_min hp (by omega)
      · exact lt_of_le_of_lt (min_le_right _ _) (by omega)
  · intro hne
    by_cases hlen : stageableLines.length = 0
    · exact hempty hlen _
    · apply refreshStagingPanel_fst_ne_crashed hre
      rw [refreshStagingPanel_snd hre]
      refine guiFocusLineAndHunk_ne_crashed c ?_ hne
      simp only [IndexInRange]
      omega

theorem exampleCollaborators_reparses :
    Reparses exampleCollaborators "plain diff" [2, 8] [4, 10] :=
  ⟨{ HasUnstagedChanges := true }, rfl, rfl, rfl, by decide, rfl, rfl⟩

/-- Witness of `refreshStagingPanel_clamps_index`: the sample diff has two
stageable lines, so a previous index 5 becomes 1, and without a previous
session the index is 0. -/
theorem refreshStagingPanel_clamps_index_witness :
    Reparses exampleCollaborators "plain diff" [2, 8] [4, 10] ∧
    (refreshStagingPanel exampleCollaborators
        { StagingState := some { exampleSession with CurrentLineIndex := 5 } }).2 =
      { StagingState := some
          { StageableLines := [4, 10], HunkStarts := [2, 8], CurrentLineIndex := 1,
            Diff := "plain diff" } } ∧
    (refreshStagingPanel exampleCollaborators { StagingState := none }).2 =
      { StagingState := some
          { StageableLines := [4, 10], HunkStarts := [2, 8], CurrentLineIndex := 0,
            Diff := "plain diff" } } :=
  ⟨exampleCollaborators_reparses,
    ((refreshStagingPanel_clamps_index exampleCollaborators "plain diff" [2, 8] [4, 10]
      exampleCollaborators_reparses).1 { exampleSession with CurrentLineIndex := 5 }).1,
    (refreshStagingPanel_clamps_index exampleCollaborators "plain diff" [2, 8] [4, 10]
      exampleCollaborators_reparses).2.1⟩

/-- C6: for strictly increasing hunk starts and a selected line that lies
after the first hunk start and is not a hunk start, the rows computed by
`focusLineAndHunk` and `focusLine` are those of the reference definition
`computeFocus` of the specification: `scrollOrigin = max(0, bottomLine -
viewHeight + 1)` and `cursorRow = lineNumber - scrollOrigin`, with
`bottomLine = lineNumber + 3` when the hunk span exceeds `viewHeight`. -/
theorem focusLineAndHunk_eq_computeFocus (state : stagingState)
    (lineNumber totalLines viewHeight h0 : Int)
    (hinc : StrictlyIncreasing state.HunkStarts)
    (hfirst : state.HunkStarts[0]? = some h0)
    (hsel : index state.StageableLines state.CurrentLineIndex = some lineNumber)
    (hlo : h0 < lineNumber) (hnot : lineNumber ∉ state.HunkStarts) :
    ∃ f, focusLineAndHunk state totalLines viewHeight = some f ∧
      computeFocus lineNumber state.HunkStarts viewHeight totalLines = some f := by
  obtain ⟨k, hk⟩ := exists_inHunk hfirst hlo hnot
  refine ⟨_, focusLineAndHunk_inHunk hinc hsel hk, ?_⟩
  simp only [computeFocus, hk.enclosingHunk_eq hinc, focusLine]
  congr 1
  have hmax : ∀ x : Int, max 0 x = if x < 0 then 0 else x := by
    intro x
    split_ifs <;> omega
  simp only [hmax]

/-- Witness of `focusLineAndHunk_eq_computeFocus`: two hunks starting at lines
4 and 30, line 33 selected in the second one. -/
theorem focusLineAndHunk_eq_computeFocus_witness :
    ∃ f, focusLineAndHunk
        { StageableLines := [8, 33], HunkStarts := [4, 30], CurrentLineIndex := 1, Diff := "" }
        60 10 = some f ∧
      computeFocus 33 [4, 30] 10 60 = some f :=
  focusLineAndHunk_eq_computeFocus
    { StageableLines := [8, 33], HunkStarts := [4, 30], CurrentLineIndex := 1, Diff := "" }
    33 60 10 4 (by decide) (by decide) (by decide) (by decide) (by decide)

/-- C7 (amended): for strictly increasing hunk starts and a line `L` at or
after the first hunk start that is not itself a hunk start (every stageable
line is such a line), `PrevIndex(hunkStarts, L)`, the hunk index used by
`handleCycleHunk` and `focusLineAndHunk`, is the index of the greatest hunk
start `≤ L`. -/
theorem PrevIndex_greatest_start (hunkStarts : List Int) (L h0 : Int)
    (hinc : StrictlyIncreasing hunkStarts)
    (hfirst : hunkStarts[0]? = some h0) (hlo : h0 ≤ L)
    (hnot : L ∉ hunkStarts) :
    GreatestStartAtOrBelow hunkStarts L (PrevIndex hunkStarts L) := by
  have hlt : h0 < L := by
    rcases lt_or_eq_of_le hlo with h | h
    · exact h
    · exact absurd (h ▸ List.getElem?_mem hfirst) hnot
  obtain ⟨k, hk⟩ := exists_inHunk hfirst hlt hnot
  have hk' := hk
  obtain ⟨a, ha, hal, hnext⟩ := hk'
  have hP : PrevIndex hunkStarts L = (k : Int) :=
    PrevIndex_of_between hinc ha hal (fun b hb => le_of_lt (hnext b hb))
  rw [hP]
  refine ⟨a, by rw [index_natCast]; exact ha, le_of_lt hal, ?_⟩
  intro b hb hbL
  obtain ⟨j, hj⟩ := List.mem_iff_getElem?.mp hb
  by_cases hjk : j ≤ k
  · exact hinc.le_of_le hj ha hjk
  · have := hk.lt_later hinc (by omega : k < j) hj
    omega

/-- Witness of `PrevIndex_greatest_start`: hunk starts `[2, 8]` and line 10. -/
theorem PrevIndex_greatest_start_witness :
    GreatestStartAtOrBelow [2, 8] 10 (PrevIndex [2, 8] 10) :=
  PrevIndex_greatest_start [2, 8] 10 2 (by decide) (by decide) (by decide) (by decide)

/-- C7 (as stated) fails on a hunk start: for hunk starts `[2, 8]` and line 8
the hypotheses of the claim hold and `PrevIndex` is 0, the hunk starting at
line 2, while the greatest hunk start `≤ 8` is at index 1. -/
theorem PrevIndex_not_greatest_at_hunk_start :
    StrictlyIncreasing [2, 8] ∧ ([2, 8] : List Int) ≠ [] ∧ (2 : Int) ≤ 8 ∧
      PrevIndex [2, 8] 8 = 0 ∧
      GreatestStartAtOrBelow [2, 8] 8 1 ∧
      ¬ GreatestStartAtOrBelow [2, 8] 8 (PrevIndex [2, 8] 8) := by
  refine ⟨by decide, by decide, by decide, by decide, ⟨8, by decide, by decide, ?_⟩, ?_⟩
  · intro b _ hb
    exact hb
  · rintro ⟨a, ha, _, hall⟩
    have h0 : PrevIndex [2, 8] 8 = 0 := by decide
    rw [h0] at ha
    have ha2 : a = 2 := by
      have : index [2, 8] 0 = some 2 := by decide
      rw [this] at ha
      cases ha
      rfl
    have := hall 8 (by decide) (le_refl _)
    omega

/-- C8: navigation-state invariant.  From a session with
`0 ≤ currentIndex < len(stageableLines)` and at least one hunk start, each of
`handleCycleLine` and `handleCycleHunk` (with either flag) returns without a
crash and leaves a session with the index in range and with the same diff,
hunk starts and stageable lines; a re-parse in `refreshStagingPanel` that
yields at least one stageable line leaves a session with the index in range
(and does not crash when the parse yields a hunk start). -/
theorem navigation_keeps_index_in_range (c : Collaborators) (state : stagingState)
    (hidx : IndexInRange state) (hne : state.HunkStarts ≠ []) :
    (∀ prev : Bool, ∃ s2 : stagingState,
        (handleCycleLine c prev { StagingState := some state }).2 = { StagingState := some s2 } ∧
        (handleCycleLine c prev { StagingState := some state }).1 ≠ Ret.crashed ∧
        IndexInRange s2 ∧ s2.Diff = state.Diff ∧ s2.HunkStarts = state.HunkStarts ∧
        s2.StageableLines = state.StageableLines) ∧
      (∀ prev : Bool, ∃ s2 : stagingState,
        (handleCycleHunk c prev { StagingState := some state }).2 = { StagingState := some s2 } ∧
        (handleCycleHunk c prev { StagingState := some state }).1 ≠ Ret.crashed ∧
        IndexInRange s2 ∧ s2.Diff = state.Diff ∧ s2.HunkStarts = state.HunkStarts ∧
        s2.StageableLines = state.StageableLines) ∧
      (∀ (diff : String) (hunkStarts stageableLines : List Int),
        Reparses c diff hunkStarts stageableLines → stageableLines ≠ [] →
        ∃ s2 : stagingState,
          (refreshStagingPanel c { StagingState := some state }).2 = { StagingState := some s2 } ∧
          IndexInRange s2 ∧ s2.StageableLines = stageableLines ∧
          (hunkStarts ≠ [] →
            (refreshStagingPanel c { StagingState := some state }).1 ≠ Ret.crashed)) := by
  obtain ⟨l, hl⟩ := index_of_range hidx.1 hidx.2
  have hlines : state.StageableLines ≠ [] := by
    intro h
    have := hidx.1
    have := hidx.2
    rw [h] at this
    simp at this
    omega
  refine ⟨?_, ?_, ?_⟩
  · intro prev
    have hrange : IndexInRange
        { state with CurrentLineIndex := cycleLineIndex prev state.StageableLines l } := by
      unfold cycleLineIndex
      cases prev
      · exact ⟨NextIndex_nonneg _ _, NextIndex_lt_length _ hlines⟩
      · exact ⟨PrevIndex_nonneg _ hlines, PrevIndex_lt_length _ _⟩
    rw [handleCycleLine_eq c prev hl]
    exact ⟨_, rfl, guiFocusLineAndHunk_ne_crashed c hrange hne, hrange, rfl, rfl, rfl⟩
  · intro prev
    obtain ⟨h0, h1⟩ := cycleHunkIndex_range prev state.HunkStarts
      (PrevIndex_nonneg l hne) (PrevIndex_lt_length state.HunkStarts l)
    obtain ⟨t, ht⟩ := index_of_range h0 h1
    have hrange : IndexInRange
        { state with CurrentLineIndex := NextIndex state.StageableLines t } :=
      ⟨NextIndex_nonneg _ _, NextIndex_lt_length _ hlines⟩
    rw [handleCycleHunk_eq c prev hl rfl ht]
    exact ⟨_, rfl, guiFocusLineAndHunk_ne_crashed c hrange hne, hrange, rfl, rfl, rfl⟩
  · intro diff hunkStarts stageableLines hre hsome
    have hlen : 0 < stageableLines.length := List.length_pos.mpr hsome
    have hrange : IndexInRange
        { StageableLines := stageableLines
          HunkStarts := hunkStarts
          CurrentLineIndex := min state.CurrentLineIndex ((stageableLines.length : Int) - 1)
          Diff := diff } := by
      constructor
      · exact le_min hidx.1 (by omega)
      · show min state.CurrentLineIndex ((stageableLines.length : Int) - 1)
          < (stageableLines.length : Int)
        exact lt_of_le_of_lt (min_le_right _ _) (by omega)
    refine ⟨_, refreshStagingPanel_snd hre _, hrange, rfl, ?_⟩
    intro hhs
    apply refreshStagingPanel_fst_ne_crashed hre
    rw [refreshStagingPanel_snd hre]
    exact guiFocusLineAndHunk_ne_crashed c hrange hhs

/-- Witness of `navigation_keeps_index_in_range` on the sample session: the
next line, the previous hunk and a re-parse all leave the index in range. -/
theorem navigation_keeps_index_in_range_witness :
    IndexInRange exampleSession ∧ exampleSession.HunkStarts ≠ [] ∧
    (∃ s2 : stagingState,
      (handleCycleLine exampleCollaborators false { StagingState := some exampleSession }).2 =
        { StagingState := some s2 } ∧
      (handleCycleLine exampleCollaborators false { StagingState := some exampleSession }).1 ≠
        Ret.crashed ∧
      IndexInRange s2 ∧ s2.Diff = exampleSession.Diff ∧
      s2.HunkStarts = exampleSession.HunkStarts ∧
      s2.StageableLines = exampleSession.StageableLines) ∧
    (∃ s2 : stagingState,
      (handleCycleHunk exampleCollaborators true { StagingState := some exampleSession }).2 =
        { StagingState := some s2 } ∧
      (handleCycleHunk exampleCollaborators true { StagingState := some exampleSession }).1 ≠
        Ret.crashed ∧
      IndexInRange s2 ∧ s2.Diff = exampleSession.Diff ∧
      s2.HunkStarts = exampleSession.HunkStarts ∧
      s2.StageableLines = exampleSession.StageableLines) ∧
    (∃ s2 : stagingState,
      (refreshStagingPanel exampleCollaborators { StagingState := some exampleSession }).2 =
        { StagingState := some s2 } ∧
      IndexInRange s2 ∧ s2.StageableLines = [4, 10] ∧
      (([2, 8] : List Int) ≠ [] →
        (refreshStagingPanel exampleCollaborators { StagingState := some exampleSession }).1 ≠
          Ret.crashed)) :=
  ⟨by decide, by decide,
    (navigation_keeps_index_in_range exampleCollaborators exampleSession
      (by decide) (by decide)).1 false,
    (navigation_keeps_index_in_range exampleCollaborators exampleSession
      (by decide) (by decide)).2.1 true,
    (navigation_keeps_index_in_range exampleCollaborators exampleSession
      (by decide) (by decide)).2.2 "plain diff" [2, 8] [4, 10]
      exampleCollaborators_reparses (by decide)⟩

/-- C9: when the whole diff fits in the view (`totalLines ≤ viewHeight`), with
strictly increasing hunk starts (0-based line indices) below `totalLines` and
a valid selected line, the focus computation yields `scrollOrigin = 0` and
`cursorRow = lineNumber`. -/
theorem focus_short_document (state : stagingState) (lineNumber totalLines viewHeight h0 : Int)
    (hinc : StrictlyIncreasing state.HunkStarts)
    (hfirst : state.HunkStarts[0]? = some h0) (hnn : 0 ≤ h0)
    (htotal : ∀ s ∈ state.HunkStarts, s < totalLines)
    (hshort : totalLines ≤ viewHeight)
    (hsel : index state.StageableLines state.CurrentLineIndex = some lineNumber)
    (hlo : h0 < lineNumber) (hhi : lineNumber < totalLines)
    (hnot : lineNumber ∉ state.HunkStarts) :
    focusLineAndHunk state totalLines viewHeight =
      some { scrollOrigin := 0, cursorRow := lineNumber } := by
  obtain ⟨k, hk⟩ := exists_inHunk hfirst hlo hnot
  obtain ⟨h1, h2, h3, h4⟩ := hk.bounds hinc hfirst hnn htotal hhi
  rw [focusLineAndHunk_inHunk hinc hsel hk]
  have hfit : ¬ (hunkBottom state.HunkStarts k totalLines - hunkTop state.HunkStarts k
      > viewHeight) := by omega
  have hover : ¬ (hunkBottom state.HunkStarts k totalLines - viewHeight + 1 < 0) →
      hunkBottom state.HunkStarts k totalLines - viewHeight + 1 = 0 := by
    intro h; omega
  simp only [focusLine, if_neg hfit]
  split_ifs with h
  · simp
  · simp [hover h]

/-- Witness of `focus_short_document`: a single hunk starting at line 4 with
one changed line (line 8), a diff of 12 lines in a view of 20 rows. -/
theorem focus_short_document_witness :
    focusLineAndHunk
        { StageableLines := [8], HunkStarts := [4], CurrentLineIndex := 0, Diff := "" } 12 20
      = some { scrollOrigin := 0, cursorRow := 8 } :=
  focus_short_document
    { StageableLines := [8], HunkStarts := [4], CurrentLineIndex := 0, Diff := "" }
    8 12 20 4 (by decide) (by decide) (by decide) (by decide) (by decide) (by decide)
    (by decide) (by decide) (by decide)

/-- C10: in `handleStageLineOrHunk`, when the patch modifier (for a line or
for a hunk) or the external `ApplyPatch` returns an error, the call returns
that same error and leaves the gui state, hence the session, exactly as it
was. -/
theorem handleStageLineOrHunk_error_keeps_session (c c2 : Collaborators) (hunk : Bool)
    (g : Gui) (state : stagingState) (currentLine : Int) (err : Err)
    (hmod : c.NewPatchModifier = none)
    (hg : g.StagingState = some state)
    (hsel : index state.StageableLines state.CurrentLineIndex = some currentLine)
    (hfail :
      (if hunk then c.ModifyPatchForHunk state.Diff state.HunkStarts currentLine
        else c.ModifyPatchForLine state.Diff currentLine) = Except.error err ∨
      ∃ patch,
        (if hunk then c.ModifyPatchForHunk state.Diff state.HunkStarts currentLine
          else c.ModifyPatchForLine state.Diff currentLine) = Except.ok patch ∧
        c.ApplyPatch patch = Except.error err) :
    handleStageLineOrHunk c c2 hunk g = (Ret.error err, g) := by
  unfold handleStageLineOrHunk
  simp only [hmod, hg, hsel]
  rcases hfail with h | ⟨patch, h, happly⟩
  · simp only [h]
  · simp only [h, happly]

/-- Witness of `handleStageLineOrHunk_error_keeps_session`: the apply step
rejects the patch for line 4 of the sample session. -/
theorem handleStageLineOrHunk_error_keeps_session_witness :
    handleStageLineOrHunk rejectingCollaborators exampleCollaborators false
        { StagingState := some exampleSession } =
      (Ret.error "patch does not apply", { StagingState := some exampleSession }) :=
  handleStageLineOrHunk_error_keeps_session rejectingCollaborators exampleCollaborators false
    { StagingState := some exampleSession } exampleSession 4 "patch does not apply"
    rfl rfl (by decide) (Or.inr ⟨"line patch", rfl, rfl⟩)

/-- The visible window when the hunk of the selected line is not judged too
big (`bottomLine - hunkStart ≤ viewHeight`): the bottom line of the hunk is in
the window and is its last row once the view is scrolled, whereas the top
line of the hunk is in the window exactly when the span is strictly smaller
than the view height. -/
theorem focus_window_of_not_too_big (state : stagingState)
    (lineNumber totalLines viewHeight h0 : Int) (k : Nat)
    (hinc : StrictlyIncreasing state.HunkStarts)
    (hfirst : state.HunkStarts[0]? = some h0) (hnn : 0 ≤ h0)
    (htotal : ∀ s ∈ state.HunkStarts, s < totalLines)
    (hsel : index state.StageableLines state.CurrentLineIndex = some lineNumber)
    (hhi : lineNumber < totalLines)
    (hk : InHunk state.HunkStarts k lineNumber)
    (hfit : hunkBottom state.HunkStarts k totalLines - hunkTop state.HunkStarts k ≤ viewHeight) :
    ∃ f, focusLineAndHunk state totalLines viewHeight = some f ∧
      hunkBottom state.HunkStarts k totalLines ≤ f.scrollOrigin + viewHeight - 1 ∧
      (0 < f.scrollOrigin →
        f.scrollOrigin + viewHeight - 1 = hunkBottom state.HunkStarts k totalLines) ∧
      (f.scrollOrigin ≤ hunkTop state.HunkStarts k ↔
        hunkBottom state.HunkStarts k totalLines - hunkTop state.HunkStarts k < viewHeight) := by
  obtain ⟨h1, h2, h3, h4⟩ := hk.bounds hinc hfirst hnn htotal hhi
  refine ⟨_, focusLineAndHunk_inHunk hinc hsel hk, ?_⟩
  have hno : ¬ (hunkBottom state.HunkStarts k totalLines - hunkTop state.HunkStarts k
      > viewHeight) := by omega
  simp only [focusLine, if_neg hno]
  split_ifs <;> refine ⟨?_, ?_, ?_⟩ <;> omega

/-- C11 (amended): for strictly increasing hunk starts (0-based line indices)
all below `totalLines` and a selected line below `totalLines` lying in hunk
`k`, when the hunk is not judged too big (`bottomLine - hunkStart ≤
viewHeight`, with `hunkStart = 0` for the first hunk), every line from
`hunkStart` to `bottomLine` lies inside the visible window
`[scrollOrigin, scrollOrigin + viewHeight - 1]`, except the line `hunkStart`
itself when `bottomLine - hunkStart = viewHeight` (the hunk then has one line
more than the view, and `scrollOrigin = hunkStart + 1`); the last row of the
window is `bottomLine` whenever `scrollOrigin > 0`; and when the selection is
in the first hunk and `bottomLine - hunkStart < viewHeight`, line 0 is
visible. -/
theorem whole_hunk_visible (state : stagingState)
    (lineNumber totalLines viewHeight h0 : Int) (k : Nat)
    (hinc : StrictlyIncreasing state.HunkStarts)
    (hfirst : state.HunkStarts[0]? = some h0) (hnn : 0 ≤ h0)
    (htotal : ∀ s ∈ state.HunkStarts, s < totalLines)
    (hsel : index state.StageableLines state.CurrentLineIndex = some lineNumber)
    (hhi : lineNumber < totalLines)
    (hk : InHunk state.HunkStarts k lineNumber)
    (hfit : hunkBottom state.HunkStarts k totalLines - hunkTop state.HunkStarts k ≤ viewHeight) :
    ∃ f, focusLineAndHunk state totalLines viewHeight = some f ∧
      (∀ line : Int, hunkTop state.HunkStarts k ≤ line →
        line ≤ hunkBottom state.HunkStarts k totalLines →
        (line = hunkTop state.HunkStarts k →
          hunkBottom state.HunkStarts k totalLines - hunkTop state.HunkStarts k < viewHeight) →
        f.scrollOrigin ≤ line ∧ line ≤ f.scrollOrigin + viewHeight - 1) ∧
      (hunkBottom state.HunkStarts k totalLines - hunkTop state.HunkStarts k = viewHeight →
        f.scrollOrigin = hunkTop state.HunkStarts k + 1) ∧
      (0 < f.scrollOrigin →
        f.scrollOrigin + viewHeight - 1 = hunkBottom state.HunkStarts k totalLines) ∧
      (k = 0 →
        hunkBottom state.HunkStarts k totalLines - hunkTop state.HunkStarts k < viewHeight →
        f.scrollOrigin ≤ 0 ∧ 0 ≤ f.scrollOrigin + viewHeight - 1) := by
  obtain ⟨h1, h2, h3, h4⟩ := hk.bounds hinc hfirst hnn htotal hhi
  refine ⟨_, focusLineAndHunk_inHunk hinc hsel hk, ?_⟩
  have hno : ¬ (hunkBottom state.HunkStarts k totalLines - hunkTop state.HunkStarts k
      > viewHeight) := by omega
  have htop0 : k = 0 → hunkTop state.HunkStarts k = 0 := by
    intro hk0
    simp [hunkTop, hk0]
  simp only [focusLine, if_neg hno]
  split_ifs with hover
  · refine ⟨?_, ?_, ?_, ?_⟩
    · intro line hl1 hl2 hl3
      constructor <;> omega
    · intro _; omega
    · intro _; omega
    · intro hk0 _
      have := htop0 hk0
      constructor <;> omega
  · refine ⟨?_, ?_, ?_, ?_⟩
    · intro line hl1 hl2 hl3
      by_cases hline : line = hunkTop state.HunkStarts k
      · have := hl3 hline
        constructor <;> omega
      · constructor <;> omega
    · intro _; omega
    · intro _; omega
    · intro hk0 _
      have := htop0 hk0
      constructor <;> omega

/-- Witness of `whole_hunk_visible`: hunks starting at lines 4 and 20, line 25
selected, a diff of 31 lines in a view of 11 rows; the second hunk, lines 20
to 30, fills the window. -/
theorem whole_hunk_visible_witness :
    hunkTop [4, 20] 1 = 20 ∧ hunkBottom [4, 20] 1 31 = 30 ∧
    ∃ f, focusLineAndHunk
        { StageableLines := [8, 25], HunkStarts := [4, 20], CurrentLineIndex := 1, Diff := "" }
        31 11 = some f ∧
      (∀ line : Int, hunkTop [4, 20] 1 ≤ line → line ≤ hunkBottom [4, 20] 1 31 →
        (line = hunkTop [4, 20] 1 → hunkBottom [4, 20] 1 31 - hunkTop [4, 20] 1 < 11) →
        f.scrollOrigin ≤ line ∧ line ≤ f.scrollOrigin + 11 - 1) ∧
      (hunkBottom [4, 20] 1 31 - hunkTop [4, 20] 1 = 11 →
        f.scrollOrigin = hunkTop [4, 20] 1 + 1) ∧
      (0 < f.scrollOrigin → f.scrollOrigin + 11 - 1 = hunkBottom [4, 20] 1 31) ∧
      (1 = 0 → hunkBottom [4, 20] 1 31 - hunkTop [4, 20] 1 < 11 →
        f.scrollOrigin ≤ 0 ∧ 0 ≤ f.scrollOrigin + 11 - 1) :=
  ⟨by decide, by decide,
    whole_hunk_visible
      { StageableLines := [8, 25], HunkStarts := [4, 20], CurrentLineIndex := 1, Diff := "" }
      25 31 11 4 1 (by decide) (by decide) (by decide) (by decide) (by decide) (by decide)
      ⟨20, rfl, by decide, fun b hb => by
        have hnone : ([4, 20] : List Int)[1 + 1]? = none := rfl
        rw [hnone] at hb
        cases hb⟩
      (by decide)⟩

/-- C11 (as stated) fails: a hunk whose span `bottomLine - hunkStart` equals
`viewHeight` is not judged too big, yet its top line is outside the visible
window.  With one hunk starting at line 4, line 8 selected, a diff of 11
lines and a view of 10 rows the origin row is 1, so line 0 (the diff header)
is not shown; with hunks starting at lines 4 and 20, line 25 selected, 31
lines and 10 rows the origin row is 21, so the hunk header at line 20 is not
shown. -/
theorem focus_hides_hunk_top_at_exact_span :
    (StrictlyIncreasing [4] ∧ (∀ s ∈ [(4 : Int)], s < 11) ∧ index [8] 0 = some 8 ∧
      (4 : Int) < 8 ∧ (8 : Int) < 11 ∧ (8 : Int) ∉ [(4 : Int)] ∧
      hunkTop [4] 0 = 0 ∧ hunkBottom [4] 0 11 = 10 ∧
      hunkBottom [4] 0 11 - hunkTop [4] 0 ≤ 10 ∧
      focusLineAndHunk
          { StageableLines := [8], HunkStarts := [4], CurrentLineIndex := 0, Diff := "" } 11 10
        = some { scrollOrigin := 1, cursorRow := 7 } ∧
      ¬ ((1 : Int) ≤ hunkTop [4] 0)) ∧
    (StrictlyIncreasing [4, 20] ∧ (∀ s ∈ [(4 : Int), 20], s < 31) ∧
      index [8, 25] 1 = some 25 ∧
      (4 : Int) < 25 ∧ (25 : Int) < 31 ∧ (25 : Int) ∉ [(4 : Int), 20] ∧
      hunkTop [4, 20] 1 = 20 ∧ hunkBottom [4, 20] 1 31 = 30 ∧
      hunkBottom [4, 20] 1 31 - hunkTop [4, 20] 1 ≤ 10 ∧
      focusLineAndHunk
          { StageableLines := [8, 25], HunkStarts := [4, 20], CurrentLineIndex := 1, Diff := "" }
          31 10
        = some { scrollOrigin := 21, cursorRow := 4 } ∧
      ¬ ((21 : Int) ≤ hunkTop [4, 20] 1)) := by
  decide

end Staging
